import Mathlib

/-!
# Link Navigation plugin — verification of the link-graph cache and traversal core

Shallow embedding of the caching and traversal core of `src/main.ts`
(class `LinkNavigationPlugin`):

* the per-document link cache `cacheLinkData` (main.ts 416–455) with TTL
  freshness, request coalescing through `loadingPromises`, a 10 s timeout
  race for the initiating caller, dirty marking, and size-bounded eviction;
* `invalidateCache` (main.ts 1388–1391);
* the inward walk `renderInlinksIterativelyWithOutlinks` (main.ts 990–1089)
  and the outward walk `renderOutlinksIteratively` (main.ts 1143–1209);
* the depth budgeting of `renderLinkHierarchy` (main.ts 896–932).

JavaScript `Map`s are embedded as association lists in insertion order
(`Map.set` updates in place keeping the position, otherwise appends;
`Map.delete` removes the key; iteration follows insertion order), and
JavaScript `Set`s as duplicate-free lists in insertion order.  Times are
natural-number milliseconds.  The single-threaded cooperative scheduling of
the host is embedded by splitting `cacheLinkData` at its one `await` into a
synchronous head (`cacheLinkDataSync`) and the initiating caller's
continuation (`cacheLinkDataSettle`); a pending `getLinks` extraction is
identified by a promise id, and its eventual outcome is an oracle
`Nat → Except Unit CacheEntry` (success or rejection — `getLinks` itself
never constructs the `'Loading timeout'` error, which only the
`Promise.race` in `cacheLinkData` produces).
-/

namespace LinkNavigation

/-- An Obsidian `TFile`, reduced to the three fields the core reads:
`path` (the stable identifier and cache key), `basename` (the display name
links are stored under), and `extension`. -/
structure TFile where
  path : String
  basename : String
  extension : String
deriving DecidableEq

/-- `CacheEntry` of main.ts 55–62: the five link sets (stored as
duplicate-free arrays of basenames by `getLinks`) plus the timestamp. -/
structure CacheEntry where
  inlinks : List String
  outlinks : List String
  canvasLinks : List String
  attachments : List String
  tags : List String
  timestamp : Nat
deriving DecidableEq

/-- JavaScript `Map.get` over an insertion-ordered association list. -/
def mapGet {α : Type} (m : List (String × α)) (k : String) : Option α :=
  (m.find? (fun p => p.1 == k)).map Prod.snd

/-- JavaScript `Map.set`: update in place (keeping the entry's position)
when the key is present, otherwise append. -/
def mapSet {α : Type} (m : List (String × α)) (k : String) (v : α) :
    List (String × α) :=
  if (m.find? (fun p => p.1 == k)).isSome then
    m.map (fun p => if p.1 == k then (k, v) else p)
  else
    m ++ [(k, v)]

/-- JavaScript `Map.delete`. -/
def mapDelete {α : Type} (m : List (String × α)) (k : String) :
    List (String × α) :=
  m.filter (fun p => p.1 != k)

/-- JavaScript `Set.add`: append when absent. -/
def setAdd (l : List String) (k : String) : List String :=
  if k ∈ l then l else l ++ [k]

/-- The keys of an association list are pairwise distinct — the `Map`
representation invariant (JavaScript `Map` keys are unique). -/
def keysNodup {α : Type} (m : List (String × α)) : Prop :=
  (m.map Prod.fst).Nodup

/-- The mutable cache state owned by the plugin (main.ts 158–161):
`cache` and `loadingPromises` are `Map`s, `dirtyCache` is a `Set`.
An in-flight `getLinks` call is identified by its promise id. -/
structure CacheState where
  cache : List (String × CacheEntry)
  loadingPromises : List (String × Nat)
  dirtyCache : List String
deriving DecidableEq

/-- Source default `cacheTimeout` (main.ts 38): five minutes. -/
def defaultCacheTimeout : Nat := 5 * 60 * 1000

/-- Source `maxCacheSize` (main.ts 160). -/
def defaultMaxCacheSize : Nat := 200

/-- The fixed extraction ceiling of the `Promise.race` in `cacheLinkData`
(main.ts 437): ten seconds. -/
def loadingTimeoutMs : Nat := 10000

/-- The fresh-hit short-circuit of `cacheLinkData` (main.ts 419–424):
a non-dirty cached entry younger than `cacheTimeout` is returned with no
I/O.  (`Date.now() - entry.timestamp` is embedded as truncated `Nat`
subtraction; stored timestamps never exceed the current time.) -/
def freshEntry (cacheTimeout : Nat) (s : CacheState) (key : String)
    (now : Nat) : Option CacheEntry :=
  if (mapGet s.cache key).isSome ∧ key ∉ s.dirtyCache then
    match mapGet s.cache key with
    | some e => if now - e.timestamp < cacheTimeout then some e else none
    | none => none
  else none

/-- How one `cacheLinkData` call suspends (or returns) at its first await:
`done e` — returned a fresh cached entry synchronously (main.ts 422);
`awaitJoin pid` — an in-flight request exists, the call returns that
pending promise directly, with no timeout race (main.ts 426–428);
`awaitRace pid` — the call started extraction `pid` and awaits
`Promise.race([loadingPromise, 10 s timeout])` (main.ts 430–439). -/
inductive CallPhase where
  | done (e : CacheEntry)
  | awaitJoin (pid : Nat)
  | awaitRace (pid : Nat)
deriving DecidableEq

/-- The synchronous head of `cacheLinkData` (main.ts 416–431), up to the
first suspension point.  `newPid` is the id the new `getLinks` promise
would receive.  Returns the phase, the updated state, and the number of
`getLinks` extractions started (0 or 1).  The `?? this.getLinks(file)`
fallback on main.ts 427 is dead code (`has` guarantees `get` is defined)
and is embedded as returning the stored promise. -/
def cacheLinkDataSync (cacheTimeout : Nat) (s : CacheState) (key : String)
    (now : Nat) (newPid : Nat) : CallPhase × CacheState × Nat :=
  match freshEntry cacheTimeout s key now with
  | some e => (.done e, s, 0)
  | none =>
    match mapGet s.loadingPromises key with
    | some pid => (.awaitJoin pid, s, 0)
    | none =>
      (.awaitRace newPid,
       { s with loadingPromises := mapSet s.loadingPromises key newPid }, 1)

/-- Errors a `cacheLinkData` caller can observe: a propagated extraction
failure, or the `new Error('Loading timeout')` of main.ts 437 (constructed
only by the initiating caller's race). -/
inductive LinkError where
  | extraction
  | timeout
deriving DecidableEq

/-- Outcome of the initiating caller's `Promise.race`: either the
`getLinks` promise settled first (with a value or a rejection), or the
ten-second timer fired first. -/
inductive RaceOutcome where
  | settled (r : Except Unit CacheEntry)
  | timedOut

/-- What a coalesced (joining) caller receives: the raw `loadingPromises`
entry is awaited directly, so the joiner sees exactly the extraction's own
outcome — never the race's timeout error. -/
def joinResult (env : Nat → Except Unit CacheEntry) (pid : Nat) :
    Except LinkError CacheEntry :=
  match env pid with
  | .ok e => .ok e
  | .error _ => .error .extraction

/-- The stable-sort relation used by `oldestKey`: ascending by timestamp
(ties keep map insertion order, as the JavaScript stable sort does). -/
def timeAscLE (a b : String × CacheEntry) : Prop :=
  a.2.timestamp ≤ b.2.timestamp

instance : DecidableRel timeAscLE :=
  fun a b => Nat.decLe a.2.timestamp b.2.timestamp

instance : IsTotal (String × CacheEntry) timeAscLE :=
  ⟨fun a b => Nat.le_total a.2.timestamp b.2.timestamp⟩

instance : IsTrans (String × CacheEntry) timeAscLE :=
  ⟨fun _ _ _ h h' => Nat.le_trans h h'⟩

/-- The eviction victim (main.ts 445–446): stable-sort the entries
ascending by timestamp and take the first key.  `List.insertionSort` with
`≤` on timestamps is exactly a stable ascending sort, matching the
JavaScript `sort((a, b) => a.timestamp - b.timestamp)[0]`. -/
def oldestKey (cache : List (String × CacheEntry)) : Option String :=
  (List.insertionSort timeAscLE cache).head?.map Prod.fst

/-- The initiating caller's continuation after its race settles
(main.ts 433–454): on success, store the result re-timestamped with the
current time, clear the in-flight marker, and if the entry count now
exceeds `maxCacheSize` delete the oldest-timestamp entry; the raw `result`
(not the re-timestamped copy) is returned.  On a rejection or on timeout,
clear the in-flight marker and propagate the error — the cache is not
touched.  (The JavaScript truthiness guard `if (oldestKey)` also rejects
the empty string, which is never a file path.) -/
def cacheLinkDataSettle (maxCacheSize : Nat) (s : CacheState) (key : String)
    (now : Nat) (o : RaceOutcome) : Except LinkError CacheEntry × CacheState :=
  match o with
  | .settled (.ok result) =>
    let cache1 := mapSet s.cache key { result with timestamp := now }
    let cache2 :=
      if maxCacheSize < cache1.length then
        match oldestKey cache1 with
        | some k => mapDelete cache1 k
        | none => cache1
      else cache1
    (.ok result,
     { s with cache := cache2,
              loadingPromises := mapDelete s.loadingPromises key })
  | .settled (.error _) =>
    (.error .extraction,
     { s with loadingPromises := mapDelete s.loadingPromises key })
  | .timedOut =>
    (.error .timeout,
     { s with loadingPromises := mapDelete s.loadingPromises key })

/-- `invalidateCache` (main.ts 1388–1391): delete the entry and mark the
key dirty. -/
def invalidateCache (s : CacheState) (key : String) : CacheState :=
  { s with cache := mapDelete s.cache key,
           dirtyCache := setAdd s.dirtyCache key }

/-- A point-in-time snapshot of the corpus the traversals read: the vault's
files, and the `cacheLinkData` result per document path.  The traversals
only consume link data (they never mutate it), so the cache layer is
embedded as this pure per-path function. -/
structure Vault where
  files : List TFile
  linkData : String → CacheEntry

/-- `metadataCache.getFirstLinkpathDest(name, ctx)` at the boundary of
spec §6 (`resolveDocumentByName`, first-match semantics owned by the
host): the first vault file whose basename is `name`, or none for a
dangling link. -/
def Vault.resolve (v : Vault) (name : String) : Option TFile :=
  v.files.find? (fun f => f.basename == name)

/-- One discovered inlink node (main.ts 992): its depth, the resolved
file, and a snapshot of its own outlinks. -/
structure InNode where
  depth : Nat
  file : TFile
  outlinks : List String
deriving DecidableEq

/-- Loop state of `renderInlinksIterativelyWithOutlinks` (main.ts
991–994): the FIFO queue, the discovery map (in insertion order), the
visited set, and the running maximum depth.  `discoveries` records the
depth of every `inlinkMap.set` as instrumentation for stating what
"maximum depth reached" means. -/
structure InState where
  inlinkQueue : List (TFile × Nat)
  inlinkMap : List (String × InNode)
  processedLinks : List String
  maxInlinkDepth : Nat
  discoveries : List Nat
deriving DecidableEq

/-- The body of the `for (const inlink of cacheEntry.inlinks)` loop
(main.ts 1007–1019): resolve the basename; if it resolves and is not yet
visited, record it at `depth + 1` with a snapshot of its own outlinks,
enqueue it, and raise the running maximum. -/
def recordInlink (v : Vault) (depth : Nat) (s : InState) (name : String) :
    InState :=
  match v.resolve name with
  | some sf =>
    if sf.path ∈ s.processedLinks then s
    else
      { s with
        inlinkMap := mapSet s.inlinkMap sf.path
          ⟨depth + 1, sf, (v.linkData sf.path).outlinks⟩,
        inlinkQueue := s.inlinkQueue ++ [(sf, depth + 1)],
        maxInlinkDepth := max s.maxInlinkDepth (depth + 1),
        discoveries := s.discoveries ++ [depth + 1] }
  | none => s

/-- One iteration of the inward `while` loop (main.ts 996–1020): shift the
front; skip it when its depth reaches `maxDepth` or it was already
visited; otherwise mark it visited and fold `recordInlink` over its
inlinks. -/
def inwardStep (v : Vault) (maxDepth : Nat) (s : InState) : InState :=
  match s.inlinkQueue with
  | [] => s
  | (f, d) :: rest =>
    if maxDepth ≤ d ∨ f.path ∈ s.processedLinks then
      { s with inlinkQueue := rest }
    else
      (v.linkData f.path).inlinks.foldl (recordInlink v d)
        { s with inlinkQueue := rest,
                 processedLinks := s.processedLinks ++ [f.path] }

/-- A fuel-indexed `while (live s)` loop: the step-indexed embedding of
the iterative worklist form both walks share. -/
def loopRun {S : Type} (step : S → S) (live : S → Bool) :
    Nat → S → S
  | 0, s => s
  | fuel + 1, s => if live s then loopRun step live fuel (step s) else s

/-- All paths a walk started at `file` can ever visit: the start path and
every vault path (resolution only returns vault files), deduplicated. -/
def pathUniverse (v : Vault) (file : TFile) : List String :=
  (file.path :: v.files.map TFile.path).dedup

/-- An upper bound on how many items one inward expansion can enqueue. -/
def maxInlinksLen (v : Vault) (file : TFile) : Nat :=
  ((file :: v.files).map (fun f => (v.linkData f.path).inlinks.length)).foldr max 0

/-- Iteration bound for the inward walk: every iteration pops one queue
item; at most `|pathUniverse|` iterations expand, each enqueuing at most
`maxInlinksLen` items. -/
def inwardFuel (v : Vault) (file : TFile) : Nat :=
  (pathUniverse v file).length * (1 + maxInlinksLen v file) + 1

/-- Initial inward state (main.ts 991–994): queue seeded with
`(file, 0)`, everything else empty. -/
def inwardInit (file : TFile) : InState := ⟨[(file, 0)], [], [], 0, []⟩

/-- The inward walk's final state: the while loop run to completion (the
fuel is sufficient, as proved below). -/
def inwardFinal (v : Vault) (file : TFile) (maxDepth : Nat) : InState :=
  loopRun (inwardStep v maxDepth) (fun s => !s.inlinkQueue.isEmpty)
    (inwardFuel v file) (inwardInit file)

/-- The stable-sort relation of main.ts 1022
(`sort((a, b) => b[1].depth - a[1].depth)`): descending by depth, ties
keeping map insertion (discovery) order. -/
def depthDescLE (a b : String × InNode) : Prop :=
  b.2.depth ≤ a.2.depth

instance : DecidableRel depthDescLE :=
  fun a b => Nat.decLe b.2.depth a.2.depth

instance : IsTotal (String × InNode) depthDescLE :=
  ⟨fun a b => Nat.le_total b.2.depth a.2.depth⟩

instance : IsTrans (String × InNode) depthDescLE :=
  ⟨fun _ _ _ h h' => Nat.le_trans h' h⟩

/-- `renderInlinksIterativelyWithOutlinks` (main.ts 990–1089): run the
inward walk, render the discovered nodes sorted by depth descending
(stable on discovery order), and return the maximum inlink depth reached
(the function's return value, main.ts 1089). -/
def renderInlinksIterativelyWithOutlinks (v : Vault) (file : TFile)
    (maxDepth : Nat) : List (String × InNode) × Nat :=
  let s := inwardFinal v file maxDepth
  (List.insertionSort depthDescLE s.inlinkMap, s.maxInlinkDepth)

/-- Loop state of `renderOutlinksIteratively` (main.ts 1144–1146): the
FIFO queue and visited set; `rendered` records the `(path, depth)` of
every `li` created for an outlink child (main.ts 1174), the reported
nodes of the outward walk. -/
structure OutState where
  queue : List (TFile × Nat)
  processedLinks : List String
  rendered : List (String × Nat)
deriving DecidableEq

/-- The body of the `for (const outlink of cacheEntry.outlinks)` loop
(main.ts 1171–1205): resolve; if it resolves and is not yet visited,
render it as a child of the current node (at child depth `depth + 1`) and
enqueue it at `depth + 1`. -/
def recordOutlink (v : Vault) (depth : Nat) (s : OutState) (name : String) :
    OutState :=
  match v.resolve name with
  | some lf =>
    if lf.path ∈ s.processedLinks then s
    else
      { s with rendered := s.rendered ++ [(lf.path, depth + 1)],
               queue := s.queue ++ [(lf, depth + 1)] }
  | none => s

/-- One iteration of the outward `while` loop (main.ts 1148–1208): shift
the front; skip it when its depth reaches `maxDepth`, it is a canvas
board, or it was already visited; otherwise mark it visited and fold
`recordOutlink` over its outlinks.  (The guard of main.ts 1160 only skips
DOM work when there are no outlinks and no attachments; with an empty
outlink list the fold is a no-op either way.) -/
def outwardStep (v : Vault) (maxDepth : Nat) (s : OutState) : OutState :=
  match s.queue with
  | [] => s
  | (f, d) :: rest =>
    if maxDepth ≤ d ∨ f.extension == "canvas" ∨ f.path ∈ s.processedLinks then
      { s with queue := rest }
    else
      (v.linkData f.path).outlinks.foldl (recordOutlink v d)
        { s with queue := rest,
                 processedLinks := s.processedLinks ++ [f.path] }

/-- An upper bound on how many items one outward expansion can enqueue. -/
def maxOutlinksLen (v : Vault) (file : TFile) : Nat :=
  ((file :: v.files).map (fun f => (v.linkData f.path).outlinks.length)).foldr max 0

/-- Iteration bound for the outward walk. -/
def outwardFuel (v : Vault) (file : TFile) : Nat :=
  (pathUniverse v file).length * (1 + maxOutlinksLen v file) + 1

/-- Initial outward state (main.ts 1144–1146). -/
def outwardInit (file : TFile) : OutState := ⟨[(file, 0)], [], []⟩

/-- `renderOutlinksIteratively` (main.ts 1143–1209): the while loop run to
completion. -/
def renderOutlinksIteratively (v : Vault) (file : TFile) (maxDepth : Nat) :
    OutState :=
  loopRun (outwardStep v maxDepth) (fun s => !s.queue.isEmpty)
    (outwardFuel v file) (outwardInit file)

/-- The depth budgeting of `renderLinkHierarchy` (main.ts 896–932): run
the inward walk with the configured `maxDepth`, then run the outward walk
with effective depth `Math.max(1, maxDepth - inlinksDepth)`
(main.ts 924). -/
def renderLinkHierarchy (v : Vault) (file : TFile) (maxDepth : Nat) :
    (List (String × InNode) × Nat) × Nat × OutState :=
  let inl := renderInlinksIterativelyWithOutlinks v file maxDepth
  let outlinksDepth := max 1 (maxDepth - inl.2)
  (inl, outlinksDepth, renderOutlinksIteratively v file outlinksDepth)

/-- Scenario corpus of spec §8: notes A, B, C where B links to A and C
links to B. -/
def fileA : TFile := ⟨"A.md", "A", "md"⟩

def fileB : TFile := ⟨"B.md", "B", "md"⟩

def fileC : TFile := ⟨"C.md", "C", "md"⟩

/-- A link-set with all sets empty (a leaf document). -/
def emptyEntry : CacheEntry := ⟨[], [], [], [], [], 0⟩

/-- Link data of the {A, B, C} scenario corpus: B links to A (so A's
inlinks are [B]), C links to B. -/
def abcLinkData (p : String) : CacheEntry :=
  if p == "A.md" then { emptyEntry with inlinks := ["B"] }
  else if p == "B.md" then { emptyEntry with inlinks := ["C"], outlinks := ["A"] }
  else if p == "C.md" then { emptyEntry with outlinks := ["B"] }
  else emptyEntry

/-- The {A, B, C} scenario vault. -/
def abcVault : Vault := ⟨[fileA, fileB, fileC], abcLinkData⟩

/-- Link data of a two-note cycle A→B→A (each is the other's inlink and
outlink). -/
def cycLinkData (p : String) : CacheEntry :=
  if p == "A.md" then { emptyEntry with inlinks := ["B"], outlinks := ["B"] }
  else if p == "B.md" then { emptyEntry with inlinks := ["A"], outlinks := ["A"] }
  else emptyEntry

/-- The cyclic vault A→B→A of the cycle-safety property. -/
def cycVault : Vault := ⟨[fileA, fileB], cycLinkData⟩

/-- Worklist invariant of the inward walk: the visited set is
duplicate-free, visited paths lie in the path universe, and every queued
file is the start file or a vault file (queued files come from
`Vault.resolve`). -/
def inwardInv (v : Vault) (file : TFile) (s : InState) : Prop :=
  s.processedLinks.Nodup ∧
  (∀ p ∈ s.processedLinks, p ∈ pathUniverse v file) ∧
  (∀ q ∈ s.inlinkQueue, q.1 = file ∨ q.1 ∈ v.files)

/-- Termination measure of the inward walk: unvisited universe size
(weighted by the maximal enqueue burst) plus queue length. -/
def inwardMeasure (v : Vault) (file : TFile) (s : InState) : Nat :=
  ((pathUniverse v file).length - s.processedLinks.length) *
      (1 + maxInlinksLen v file) + s.inlinkQueue.length

/-- Worklist invariant of the outward walk (mirror of `inwardInv`). -/
def outwardInv (v : Vault) (file : TFile) (s : OutState) : Prop :=
  s.processedLinks.Nodup ∧
  (∀ p ∈ s.processedLinks, p ∈ pathUniverse v file) ∧
  (∀ q ∈ s.queue, q.1 = file ∨ q.1 ∈ v.files)

/-- Termination measure of the outward walk. -/
def outwardMeasure (v : Vault) (file : TFile) (s : OutState) : Nat :=
  ((pathUniverse v file).length - s.processedLinks.length) *
      (1 + maxOutlinksLen v file) + s.queue.length

/-! ## Association-list (JavaScript `Map`) lemmas -/

theorem mapGet_cons {α : Type} (p : String × α) (m : List (String × α))
    (k : String) :
    mapGet (p :: m) k = if p.1 = k then some p.2 else mapGet m k := by
  by_cases h : p.1 = k <;> simp [mapGet, List.find?_cons, h]

theorem mapGet_append {α : Type} (m m' : List (String × α)) (k : String) :
    mapGet (m ++ m') k =
      match mapGet m k with
      | some v => some v
      | none => mapGet m' k := by
  induction m with
  | nil => simp [mapGet]
  | cons p t ih =>
    rw [List.cons_append, mapGet_cons, mapGet_cons]
    by_cases hp : p.1 = k <;> simp [hp, ih]

theorem mapGet_eq_none_iff {α : Type} (m : List (String × α)) (k : String) :
    mapGet m k = none ↔ ∀ p ∈ m, p.1 ≠ k := by
  induction m with
  | nil => simp [mapGet]
  | cons p t ih =>
    rw [mapGet_cons]
    by_cases hp : p.1 = k <;> simp [hp, ih]

theorem mapGet_isSome_iff_find? {α : Type} (m : List (String × α))
    (k : String) :
    (mapGet m k).isSome = (m.find? (fun p => p.1 == k)).isSome := by
  unfold mapGet
  cases m.find? (fun p => p.1 == k) <;> rfl

theorem mapGet_mapUpdate_self {α : Type} (m : List (String × α))
    (k : String) (v : α) :
    mapGet (m.map (fun p => if p.1 == k then (k, v) else p)) k =
      if (m.find? (fun p => p.1 == k)).isSome then some v else none := by
  induction m with
  | nil => simp [mapGet]
  | cons p t ih =>
    by_cases hp : p.1 = k
    · simp [hp, mapGet_cons]
    · have hb : (p.1 == k) = false := by simpa using hp
      simp only [List.map_cons, List.find?_cons, hb, Bool.false_eq_true,
        if_false, mapGet_cons, hp]
      simpa using ih

theorem mapGet_mapUpdate_of_ne {α : Type} (m : List (String × α))
    (k k' : String) (v : α) (h : k' ≠ k) :
    mapGet (m.map (fun p => if p.1 == k then (k, v) else p)) k' =
      mapGet m k' := by
  induction m with
  | nil => rfl
  | cons p t ih =>
    by_cases hp : p.1 = k
    · have hb : (p.1 == k) = true := by simpa using hp
      simp only [List.map_cons, hb, if_true, mapGet_cons]
      have h1 : ¬ (k = k') := fun hk => h hk.symm
      have h2 : ¬ (p.1 = k') := by rw [hp]; exact h1
      simp only [h1, h2, if_false]
      exact ih
    · have hb : (p.1 == k) = false := by simpa using hp
      simp only [List.map_cons, hb, Bool.false_eq_true, if_false, mapGet_cons]
      by_cases hpk : p.1 = k' <;> simp only [hpk, if_true, if_false]
      exact ih

theorem mapGet_mapSet_self {α : Type} (m : List (String × α)) (k : String)
    (v : α) : mapGet (mapSet m k v) k = some v := by
  unfold mapSet
  by_cases hf : (m.find? (fun p => p.1 == k)).isSome = true
  · rw [if_pos hf, mapGet_mapUpdate_self, if_pos hf]
  · rw [if_neg hf, mapGet_append]
    have hnone : mapGet m k = none := by
      rw [← Option.not_isSome_iff_eq_none, mapGet_isSome_iff_find?]
      simpa using hf
    rw [hnone, mapGet_cons]
    simp

theorem mapGet_mapSet_of_ne {α : Type} (m : List (String × α))
    (k k' : String) (v : α) (h : k' ≠ k) :
    mapGet (mapSet m k v) k' = mapGet m k' := by
  unfold mapSet
  by_cases hf : (m.find? (fun p => p.1 == k)).isSome = true
  · rw [if_pos hf]
    exact mapGet_mapUpdate_of_ne m k k' v h
  · rw [if_neg hf, mapGet_append]
    cases hm : mapGet m k' with
    | some w => simp [hm]
    | none =>
      simp only [hm]
      rw [mapGet_cons]
      have h1 : ¬ (k = k') := fun hk => h hk.symm
      simp [h1, mapGet]

theorem mapGet_mapDelete_self {α : Type} (m : List (String × α))
    (k : String) : mapGet (mapDelete m k) k = none := by
  rw [mapGet_eq_none_iff]
  intro p hp
  have := List.of_mem_filter hp
  simpa using this

theorem mapGet_mapDelete_of_ne {α : Type} (m : List (String × α))
    (k k' : String) (h : k' ≠ k) :
    mapGet (mapDelete m k) k' = mapGet m k' := by
  induction m with
  | nil => rfl
  | cons p t ih =>
    unfold mapDelete at ih ⊢
    rw [List.filter_cons]
    by_cases hp : p.1 = k
    · simp only [hp, bne_self_eq_false, Bool.false_eq_true, if_false]
      rw [mapGet_cons]
      simp only [hp, h.symm, if_false]
      exact ih
    · have : (p.1 != k) = true := by simpa using hp
      simp only [this, if_true]
      rw [mapGet_cons, mapGet_cons]
      by_cases hpk : p.1 = k' <;> simp only [hpk, if_true, if_false]
      exact ih

theorem mapSet_length_of_none {α : Type} (m : List (String × α))
    (k : String) (v : α) (h : mapGet m k = none) :
    (mapSet m k v).length = m.length + 1 := by
  unfold mapSet
  have hf : ¬ (m.find? (fun p => p.1 == k)).isSome = true := by
    rw [← mapGet_isSome_iff_find?, h]
    simp
  rw [if_neg hf]
  simp

theorem mapSet_length_le {α : Type} (m : List (String × α)) (k : String)
    (v : α) : (mapSet m k v).length ≤ m.length + 1 := by
  unfold mapSet
  split <;> simp

theorem freshEntry_loading_irrel (T : Nat) (s : CacheState) (key : String)
    (now : Nat) (l : List (String × Nat)) :
    freshEntry T { s with loadingPromises := l } key now =
      freshEntry T s key now := rfl

theorem freshEntry_none_of_no_entry (T : Nat) (s : CacheState)
    (key : String) (now : Nat) (h : mapGet s.cache key = none) :
    freshEntry T s key now = none := by
  unfold freshEntry
  simp [h]

theorem freshEntry_none_of_dirty (T : Nat) (s : CacheState) (key : String)
    (now : Nat) (h : key ∈ s.dirtyCache) :
    freshEntry T s key now = none := by
  unfold freshEntry
  simp [h]

theorem freshEntry_none_mono (T : Nat) (s : CacheState) (key : String)
    (now now' : Nat) (h : freshEntry T s key now = none)
    (hle : now ≤ now') : freshEntry T s key now' = none := by
  unfold freshEntry at h ⊢
  by_cases hc : (mapGet s.cache key).isSome = true ∧ key ∉ s.dirtyCache
  · rw [if_pos hc] at h ⊢
    cases hget : mapGet s.cache key with
    | none => simp only [hget]
    | some e =>
      simp only [hget] at h ⊢
      have hts : ¬ (now - e.timestamp < T) := by
        intro hlt
        rw [if_pos hlt] at h
        exact Option.some_ne_none e h
      rw [if_neg (by omega)]
  · rw [if_neg hc] at h ⊢

/-! ## Eviction helper lemmas -/

theorem mapSet_eq_append_of_none {α : Type} (m : List (String × α))
    (k : String) (v : α) (h : mapGet m k = none) :
    mapSet m k v = m ++ [(k, v)] := by
  unfold mapSet
  have hf : ¬ (m.find? (fun p => p.1 == k)).isSome = true := by
    rw [← mapGet_isSome_iff_find?, h]
    simp
  rw [if_neg hf]

theorem mapDelete_eq_self_of_no_key {α : Type} (m : List (String × α))
    (k : String) (h : ∀ p ∈ m, p.1 ≠ k) : mapDelete m k = m := by
  unfold mapDelete
  rw [List.filter_eq_self]
  intro p hp
  simpa using h p hp

theorem mapDelete_length_of_mem {α : Type} (m : List (String × α))
    (k : String) (hnd : keysNodup m) (hmem : ∃ e, (k, e) ∈ m) :
    (mapDelete m k).length + 1 = m.length := by
  induction m with
  | nil => rcases hmem with ⟨e, he⟩; simp at he
  | cons p t ih =>
    unfold keysNodup at hnd ih
    rw [List.map_cons, List.nodup_cons] at hnd
    unfold mapDelete
    rw [List.filter_cons]
    by_cases hp : p.1 = k
    · simp only [hp, bne_self_eq_false, Bool.false_eq_true, if_false]
      have hnok : ∀ q ∈ t, q.1 ≠ k := by
        intro q hq hqk
        apply hnd.1
        have hmem : q.1 ∈ List.map Prod.fst t := List.mem_map_of_mem Prod.fst hq
        rw [hqk, ← hp] at hmem
        exact hmem
      have hself := mapDelete_eq_self_of_no_key t k hnok
      unfold mapDelete at hself
      rw [hself]
      simp
    · have hbne : (p.1 != k) = true := by simpa using hp
      simp only [hbne, if_true, List.length_cons]
      rcases hmem with ⟨e, he⟩
      rcases List.mem_cons.mp he with he1 | he2
      · exact absurd (congrArg Prod.fst he1.symm) hp
      · have := ih hnd.2 ⟨e, he2⟩
        unfold mapDelete at this
        omega

theorem keysNodup_append_singleton {α : Type} (m : List (String × α))
    (k : String) (v : α) (hnd : keysNodup m) (h : mapGet m k = none) :
    keysNodup (m ++ [(k, v)]) := by
  unfold keysNodup at hnd ⊢
  rw [List.map_append]
  apply List.Nodup.append hnd
  · simp
  · intro a ha hb
    simp only [List.map_cons, List.map_nil, List.mem_singleton] at hb
    subst hb
    rcases List.mem_map.mp ha with ⟨p, hp, hpa⟩
    exact (mapGet_eq_none_iff m a).mp h p hp hpa

theorem mapDelete_length_lt {α : Type} (m : List (String × α))
    (k : String) (e : α) (hmem : (k, e) ∈ m) :
    (mapDelete m k).length < m.length := by
  induction m with
  | nil => simp at hmem
  | cons p t ih =>
    unfold mapDelete at ih ⊢
    rw [List.filter_cons]
    by_cases hp : (p.1 != k) = true
    · rw [if_pos hp]
      rcases List.mem_cons.mp hmem with h1 | h2
      · rw [← h1] at hp
        simp at hp
      · simp only [List.length_cons]
        exact Nat.succ_lt_succ (ih h2)
    · rw [if_neg hp]
      simp only [List.length_cons]
      exact Nat.lt_succ_of_le (List.length_filter_le _ t)

theorem oldestKey_spec (cache : List (String × CacheEntry))
    (hne : cache ≠ []) :
    ∃ k e, oldestKey cache = some k ∧ (k, e) ∈ cache ∧
      ∀ p ∈ cache, e.timestamp ≤ p.2.timestamp := by
  have hperm : List.Perm (List.insertionSort timeAscLE cache) cache :=
    List.perm_insertionSort timeAscLE cache
  have hsorted : List.Sorted timeAscLE (List.insertionSort timeAscLE cache) :=
    List.sorted_insertionSort timeAscLE cache
  have hne' : List.insertionSort timeAscLE cache ≠ [] := by
    intro h0
    rw [h0] at hperm
    exact hne hperm.symm.eq_nil
  obtain ⟨q, rest, hs⟩ := List.exists_cons_of_ne_nil hne'
  refine ⟨q.1, q.2, ?_, ?_, ?_⟩
  · unfold oldestKey
    rw [hs]
    rfl
  · have hqmem : q ∈ cache := hperm.mem_iff.mp (by rw [hs]; exact List.mem_cons_self q rest)
    exact hqmem
  · intro p hp
    have hpin : p ∈ q :: rest := by rw [← hs]; exact hperm.mem_iff.mpr hp
    rcases List.mem_cons.mp hpin with hpq | hrest
    · rw [hpq]
    · rw [hs] at hsorted
      exact List.rel_of_sorted_cons hsorted p hrest

/-! ## Cache claims -/

/-- C1: for a key with no cache entry and no pending extraction, two
`cacheLinkData` calls interleaved before either resolves start exactly one
`getLinks` extraction — the first caller initiates (extraction count 1)
and the second joins the first caller's in-flight promise (extraction
count 0), returning that extraction's own result when it resolves; the
initiating caller's settled result agrees with it. -/
theorem c1_coalescing (T : Nat) (s : CacheState) (key : String)
    (now1 now2 pid1 pid2 : Nat) (env : Nat → Except Unit CacheEntry)
    (hc : mapGet s.cache key = none)
    (hl : mapGet s.loadingPromises key = none) :
    cacheLinkDataSync T s key now1 pid1 =
      (.awaitRace pid1,
       { s with loadingPromises := mapSet s.loadingPromises key pid1 }, 1) ∧
    cacheLinkDataSync T
        { s with loadingPromises := mapSet s.loadingPromises key pid1 }
        key now2 pid2 =
      (.awaitJoin pid1,
       { s with loadingPromises := mapSet s.loadingPromises key pid1 }, 0) ∧
    (∀ e, env pid1 = .ok e →
      joinResult env pid1 = .ok e ∧
      ∀ M nowR,
        (cacheLinkDataSettle M
          { s with loadingPromises := mapSet s.loadingPromises key pid1 }
          key nowR (.settled (env pid1))).1 = .ok e) := by
  have h1 : freshEntry T s key now1 = none :=
    freshEntry_none_of_no_entry T s key now1 hc
  have h2 : freshEntry T
      { s with loadingPromises := mapSet s.loadingPromises key pid1 }
      key now2 = none := by
    rw [freshEntry_loading_irrel]
    exact freshEntry_none_of_no_entry T s key now2 hc
  refine ⟨?_, ?_, ?_⟩
  · simp only [cacheLinkDataSync, h1, hl]
  · simp only [cacheLinkDataSync, h2, mapGet_mapSet_self]
  · intro e he
    constructor
    · simp only [joinResult, he]
    · intro M nowR
      simp only [he, cacheLinkDataSettle]

/-- C1 witness: at a concrete empty state, the first call initiates and
starts exactly one extraction. -/
theorem c1_coalescing_witness :
    cacheLinkDataSync defaultCacheTimeout ⟨[], [], []⟩ "A.md" 0 7 =
      (.awaitRace 7, ⟨[], mapSet [] "A.md" 7, []⟩, 1) :=
  (c1_coalescing defaultCacheTimeout ⟨[], [], []⟩ "A.md" 0 1 7 8
    (fun _ => .ok emptyEntry) rfl rfl).1

/-- C10 (implicit): a caller that finds an in-flight request joins it
directly — the returned phase is `awaitJoin` (the stored promise, no
race), the state is untouched, no extraction is started, and the joined
result can never be the race's `timeout` error. -/
theorem c10_join_skips_timeout (T : Nat) (s : CacheState) (key : String)
    (now newPid pid : Nat) (env : Nat → Except Unit CacheEntry)
    (hfresh : freshEntry T s key now = none)
    (hl : mapGet s.loadingPromises key = some pid) :
    cacheLinkDataSync T s key now newPid = (.awaitJoin pid, s, 0) ∧
    joinResult env pid ≠ .error .timeout := by
  constructor
  · simp only [cacheLinkDataSync, hfresh, hl]
  · unfold joinResult
    cases env pid <;> simp

/-- C10 witness: at a concrete state with an in-flight request for the
key, the call joins promise 3, changes nothing and starts nothing. -/
theorem c10_join_skips_timeout_witness :
    cacheLinkDataSync defaultCacheTimeout ⟨[], [("A.md", 3)], []⟩ "A.md" 0 9 =
      (.awaitJoin 3, ⟨[], [("A.md", 3)], []⟩, 0) :=
  (c10_join_skips_timeout defaultCacheTimeout ⟨[], [("A.md", 3)], []⟩
    "A.md" 0 9 3 (fun _ => .ok emptyEntry) rfl rfl).1

/-- C3: when the initiating caller's race ends in failure (timer first, or
the extraction rejects), the matching error is propagated, the in-flight
marker for the key is removed, the cache and the dirty set are untouched,
and a later call (at any time `now' ≥ now`) starts a fresh extraction. -/
theorem c3_failure_no_cache_write (T M : Nat) (s : CacheState)
    (key : String) (now nowR now' pid pid' : Nat) (o : RaceOutcome)
    (hfresh : freshEntry T s key now = none)
    (hl : mapGet s.loadingPromises key = none)
    (hfail : o = .timedOut ∨ o = .settled (.error ()))
    (hmono : now ≤ now') :
    (cacheLinkDataSync T s key now pid).1 = .awaitRace pid ∧
    (cacheLinkDataSync T s key now pid).2.2 = 1 ∧
    (o = .timedOut →
      (cacheLinkDataSettle M (cacheLinkDataSync T s key now pid).2.1 key
        nowR o).1 = .error .timeout) ∧
    (o = .settled (.error ()) →
      (cacheLinkDataSettle M (cacheLinkDataSync T s key now pid).2.1 key
        nowR o).1 = .error .extraction) ∧
    ((cacheLinkDataSettle M (cacheLinkDataSync T s key now pid).2.1 key
        nowR o).2).cache = s.cache ∧
    mapGet ((cacheLinkDataSettle M (cacheLinkDataSync T s key now pid).2.1
        key nowR o).2).loadingPromises key = none ∧
    ((cacheLinkDataSettle M (cacheLinkDataSync T s key now pid).2.1 key
        nowR o).2).dirtyCache = s.dirtyCache ∧
    (cacheLinkDataSync T
        ((cacheLinkDataSettle M (cacheLinkDataSync T s key now pid).2.1 key
          nowR o).2) key now' pid').1 = .awaitRace pid' ∧
    (cacheLinkDataSync T
        ((cacheLinkDataSettle M (cacheLinkDataSync T s key now pid).2.1 key
          nowR o).2) key now' pid').2.2 = 1 := by
  have hsync : cacheLinkDataSync T s key now pid =
      (.awaitRace pid,
       { s with loadingPromises := mapSet s.loadingPromises key pid }, 1) := by
    simp only [cacheLinkDataSync, hfresh, hl]
  rw [hsync]
  have hsettle :
      (cacheLinkDataSettle M
        { s with loadingPromises := mapSet s.loadingPromises key pid }
        key nowR o).2 =
      { s with loadingPromises :=
          mapDelete (mapSet s.loadingPromises key pid) key } := by
    rcases hfail with h | h <;> subst h <;> rfl
  have hfresh' : freshEntry T
      { s with loadingPromises :=
          mapDelete (mapSet s.loadingPromises key pid) key } key now' = none := by
    rw [freshEntry_loading_irrel]
    exact freshEntry_none_mono T s key now now' hfresh hmono
  refine ⟨rfl, rfl, ?_, ?_, ?_, ?_, ?_, ?_, ?_⟩
  · intro h; subst h; rfl
  · intro h; subst h; rfl
  · rw [hsettle]
  · rw [hsettle]
    exact mapGet_mapDelete_self (mapSet s.loadingPromises key pid) key
  · rw [hsettle]
  · rw [hsettle]
    simp only [cacheLinkDataSync, hfresh',
      mapGet_mapDelete_self (mapSet s.loadingPromises key pid) key]
  · rw [hsettle]
    simp only [cacheLinkDataSync, hfresh',
      mapGet_mapDelete_self (mapSet s.loadingPromises key pid) key]

/-- C3 witness: at a concrete empty state with a timed-out race, the next
call (one millisecond later) starts a fresh extraction. -/
theorem c3_failure_no_cache_write_witness :
    (cacheLinkDataSync defaultCacheTimeout
      ((cacheLinkDataSettle 200
        (cacheLinkDataSync defaultCacheTimeout ⟨[], [], []⟩ "A.md" 0 4).2.1
        "A.md" 0 .timedOut).2) "A.md" 1 5).2.2 = 1 :=
  (c3_failure_no_cache_write defaultCacheTimeout 200 ⟨[], [], []⟩ "A.md"
    0 0 1 4 5 .timedOut rfl rfl (Or.inl rfl) (by decide)).2.2.2.2.2.2.2.2

/-- C2: after a successful extraction stored at time `t0` for a non-dirty
key, a second call at `now2` with `now2 - t0 < cacheTimeout` returns the
identical stored entry with zero extractions and no state change, while a
call at `now2 ≥ t0 + cacheTimeout` starts a fresh extraction. -/
theorem c2_ttl_idempotence (T M : Nat) (s : CacheState) (key : String)
    (t0 pid : Nat) (result : CacheEntry)
    (hfresh : freshEntry T s key t0 = none)
    (hl : mapGet s.loadingPromises key = none)
    (hdirty : key ∉ s.dirtyCache)
    (hsize : s.cache.length < M) :
    (cacheLinkDataSync T s key t0 pid).1 = .awaitRace pid ∧
    (cacheLinkDataSync T s key t0 pid).2.2 = 1 ∧
    mapGet ((cacheLinkDataSettle M (cacheLinkDataSync T s key t0 pid).2.1
        key t0 (.settled (.ok result))).2).cache key =
      some { result with timestamp := t0 } ∧
    (∀ now2 pid2, now2 - t0 < T →
      cacheLinkDataSync T
          ((cacheLinkDataSettle M (cacheLinkDataSync T s key t0 pid).2.1
            key t0 (.settled (.ok result))).2) key now2 pid2 =
        (.done { result with timestamp := t0 },
         (cacheLinkDataSettle M (cacheLinkDataSync T s key t0 pid).2.1
            key t0 (.settled (.ok result))).2, 0)) ∧
    (∀ now2 pid2, t0 + T ≤ now2 →
      (cacheLinkDataSync T
          ((cacheLinkDataSettle M (cacheLinkDataSync T s key t0 pid).2.1
            key t0 (.settled (.ok result))).2) key now2 pid2).1 =
        .awaitRace pid2 ∧
      (cacheLinkDataSync T
          ((cacheLinkDataSettle M (cacheLinkDataSync T s key t0 pid).2.1
            key t0 (.settled (.ok result))).2) key now2 pid2).2.2 = 1) := by
  have hsync : cacheLinkDataSync T s key t0 pid =
      (.awaitRace pid,
       { s with loadingPromises := mapSet s.loadingPromises key pid }, 1) := by
    simp only [cacheLinkDataSync, hfresh, hl]
  rw [hsync]
  have hnoev : ¬ (M < (mapSet s.cache key { result with timestamp := t0 }).length) := by
    have := mapSet_length_le s.cache key { result with timestamp := t0 }
    omega
  have hsettle :
      (cacheLinkDataSettle M
        { s with loadingPromises := mapSet s.loadingPromises key pid }
        key t0 (.settled (.ok result))).2 =
      { s with cache := mapSet s.cache key { result with timestamp := t0 },
               loadingPromises :=
                 mapDelete (mapSet s.loadingPromises key pid) key } := by
    simp only [cacheLinkDataSettle]
    rw [if_neg hnoev]
  rw [hsettle]
  have hget : mapGet (mapSet s.cache key { result with timestamp := t0 }) key =
      some { result with timestamp := t0 } := mapGet_mapSet_self _ _ _
  refine ⟨rfl, rfl, hget, ?_, ?_⟩
  · intro now2 pid2 hlt
    have hfr : freshEntry T
        { s with cache := mapSet s.cache key { result with timestamp := t0 },
                 loadingPromises :=
                   mapDelete (mapSet s.loadingPromises key pid) key }
        key now2 = some { result with timestamp := t0 } := by
      unfold freshEntry
      have hcond : (mapGet (mapSet s.cache key
          { result with timestamp := t0 }) key).isSome = true ∧
          key ∉ s.dirtyCache := ⟨by simp [hget], hdirty⟩
      rw [if_pos hcond]
      simp only [hget]
      rw [if_pos hlt]
    simp only [cacheLinkDataSync, hfr]
  · intro now2 pid2 hge
    have hfr : freshEntry T
        { s with cache := mapSet s.cache key { result with timestamp := t0 },
                 loadingPromises :=
                   mapDelete (mapSet s.loadingPromises key pid) key }
        key now2 = none := by
      unfold freshEntry
      have hcond : (mapGet (mapSet s.cache key
          { result with timestamp := t0 }) key).isSome = true ∧
          key ∉ s.dirtyCache := ⟨by simp [hget], hdirty⟩
      rw [if_pos hcond]
      simp only [hget]
      rw [if_neg (by omega)]
    constructor <;>
      simp only [cacheLinkDataSync, hfr,
        mapGet_mapDelete_self (mapSet s.loadingPromises key pid) key]

/-- C2 witness: at a concrete run (stored at time 0, re-read at time 100,
well within the five-minute default TTL), the second call returns the
stored entry with zero extractions. -/
theorem c2_ttl_idempotence_witness :
    cacheLinkDataSync defaultCacheTimeout
        ((cacheLinkDataSettle 200
          (cacheLinkDataSync defaultCacheTimeout ⟨[], [], []⟩ "A.md" 0 4).2.1
          "A.md" 0 (.settled (.ok emptyEntry))).2) "A.md" 100 5 =
      (.done { emptyEntry with timestamp := 0 },
       (cacheLinkDataSettle 200
          (cacheLinkDataSync defaultCacheTimeout ⟨[], [], []⟩ "A.md" 0 4).2.1
          "A.md" 0 (.settled (.ok emptyEntry))).2, 0) :=
  ((c2_ttl_idempotence defaultCacheTimeout 200 ⟨[], [], []⟩ "A.md" 0 4
      emptyEntry rfl rfl (by decide) (by decide)).2.2.2.1) 100 5 (by decide)

/-- C4: with the cache at capacity `M` and a successful extraction for a
key not yet cached, exactly one entry is evicted: the final cache is the
merged cache (old entries plus the new one) minus one key whose entry has
the smallest timestamp among all merged entries, and the final size is
again `M`; moreover every successful settle preserves the size bound
`cache.length ≤ M`. -/
theorem c4_eviction :
    (∀ (T M : Nat) (s : CacheState) (key : String) (t0 pid : Nat)
        (result : CacheEntry),
      keysNodup s.cache →
      s.cache.length = M →
      mapGet s.cache key = none →
      mapGet s.loadingPromises key = none →
      (cacheLinkDataSync T s key t0 pid).1 = .awaitRace pid ∧
      ((cacheLinkDataSettle M (cacheLinkDataSync T s key t0 pid).2.1 key t0
          (.settled (.ok result))).2).cache.length = M ∧
      ∃ k e, (k, e) ∈ s.cache ++ [(key, { result with timestamp := t0 })] ∧
        (∀ p ∈ s.cache ++ [(key, { result with timestamp := t0 })],
          e.timestamp ≤ p.2.timestamp) ∧
        ((cacheLinkDataSettle M (cacheLinkDataSync T s key t0 pid).2.1 key t0
          (.settled (.ok result))).2).cache =
          mapDelete (s.cache ++ [(key, { result with timestamp := t0 })]) k) ∧
    (∀ (M : Nat) (s : CacheState) (key : String) (now : Nat)
        (result : CacheEntry),
      s.cache.length ≤ M →
      ((cacheLinkDataSettle M s key now
          (.settled (.ok result))).2).cache.length ≤ M) := by
  constructor
  · intro T M s key t0 pid result hnd hsize hnew hl
    have hfresh : freshEntry T s key t0 = none :=
      freshEntry_none_of_no_entry T s key t0 hnew
    have hsync : cacheLinkDataSync T s key t0 pid =
        (.awaitRace pid,
         { s with loadingPromises := mapSet s.loadingPromises key pid }, 1) := by
      simp only [cacheLinkDataSync, hfresh, hl]
    rw [hsync]
    have happ : mapSet s.cache key { result with timestamp := t0 } =
        s.cache ++ [(key, { result with timestamp := t0 })] :=
      mapSet_eq_append_of_none s.cache key _ hnew
    have hmlen : (s.cache ++ [(key, { result with timestamp := t0 })]).length
        = M + 1 := by
      rw [List.length_append, hsize]
      rfl
    have hev : M < (mapSet s.cache key { result with timestamp := t0 }).length := by
      rw [happ, hmlen]
      omega
    have hmne : s.cache ++ [(key, { result with timestamp := t0 })] ≠ [] := by
      intro h0
      have := congrArg List.length h0
      rw [hmlen] at this
      simp at this
    obtain ⟨k, e, hok, hkmem, hmin⟩ :=
      oldestKey_spec (s.cache ++ [(key, { result with timestamp := t0 })]) hmne
    have hsettle :
        ((cacheLinkDataSettle M
          { s with loadingPromises := mapSet s.loadingPromises key pid }
          key t0 (.settled (.ok result))).2).cache =
        mapDelete (s.cache ++ [(key, { result with timestamp := t0 })]) k := by
      simp only [cacheLinkDataSettle]
      rw [happ, if_pos (by rw [← happ]; exact hev), hok]
    have hndm : keysNodup (s.cache ++ [(key, { result with timestamp := t0 })]) :=
      keysNodup_append_singleton s.cache key _ hnd hnew
    have hlen : (mapDelete (s.cache ++ [(key, { result with timestamp := t0 })]) k).length + 1
        = M + 1 := by
      rw [mapDelete_length_of_mem _ k hndm ⟨e, hkmem⟩, hmlen]
    refine ⟨rfl, ?_, k, e, hkmem, hmin, hsettle⟩
    rw [hsettle]
    omega
  · intro M s key now result hle
    have hlen1 := mapSet_length_le s.cache key { result with timestamp := now }
    simp only [cacheLinkDataSettle]
    by_cases hev : M < (mapSet s.cache key { result with timestamp := now }).length
    · rw [if_pos hev]
      have hne : mapSet s.cache key { result with timestamp := now } ≠ [] := by
        intro h0
        rw [h0] at hev
        simp at hev
      obtain ⟨k, e, hok, hkmem, _⟩ :=
        oldestKey_spec (mapSet s.cache key { result with timestamp := now }) hne
      simp only [hok]
      have := mapDelete_length_lt
        (mapSet s.cache key { result with timestamp := now }) k e hkmem
      omega
    · rw [if_neg hev]
      omega

/-- C4 witness: a concrete cache at capacity 2 plus a new third document —
the final cache size is again 2. -/
theorem c4_eviction_witness :
    ((cacheLinkDataSettle 2
      (cacheLinkDataSync defaultCacheTimeout
        ⟨[("X.md", { emptyEntry with timestamp := 5 }),
          ("Y.md", { emptyEntry with timestamp := 3 })], [], []⟩
        "Z.md" 10 4).2.1 "Z.md" 10 (.settled (.ok emptyEntry))).2).cache.length = 2 :=
  (c4_eviction.1 defaultCacheTimeout 2
    ⟨[("X.md", { emptyEntry with timestamp := 5 }),
      ("Y.md", { emptyEntry with timestamp := 3 })], [], []⟩
    "Z.md" 10 4 emptyEntry (by unfold keysNodup; decide) rfl (by decide) rfl).2.1

/-- C5 counterexample: starting from an empty state, invalidate `A.md`
(marking it dirty), then run a full successful extraction for it.  The
dirty flag is still set afterwards, and a second call one millisecond
later (far within the TTL window) starts another extraction instead of
returning the cached entry — the success path of `cacheLinkData` never
clears `dirtyCache`. -/
theorem c5_counterexample :
    "A.md" ∈ ((cacheLinkDataSettle 200
        (cacheLinkDataSync defaultCacheTimeout
          (invalidateCache ⟨[], [], []⟩ "A.md") "A.md" 0 0).2.1
        "A.md" 0 (.settled (.ok emptyEntry))).2).dirtyCache ∧
    (cacheLinkDataSync defaultCacheTimeout
        ((cacheLinkDataSettle 200
          (cacheLinkDataSync defaultCacheTimeout
            (invalidateCache ⟨[], [], []⟩ "A.md") "A.md" 0 0).2.1
          "A.md" 0 (.settled (.ok emptyEntry))).2) "A.md" 1 1).2.2 = 1 := by
  decide

/-- C5 amended: neither the synchronous head nor the settling continuation
of `cacheLinkData` ever modifies the dirty set (in particular a successful
extraction does not clear the dirty flag), and while a key is dirty every
call with no in-flight request bypasses the fresh-entry short-circuit and
starts a new extraction, even within the TTL window. -/
theorem c5_dirty_never_cleared :
    (∀ T s key now pid,
      ((cacheLinkDataSync T s key now pid).2.1).dirtyCache = s.dirtyCache) ∧
    (∀ M s key now o,
      ((cacheLinkDataSettle M s key now o).2).dirtyCache = s.dirtyCache) ∧
    (∀ T s key now pid, key ∈ s.dirtyCache →
      mapGet s.loadingPromises key = none →
      cacheLinkDataSync T s key now pid =
        (.awaitRace pid,
         { s with loadingPromises := mapSet s.loadingPromises key pid }, 1)) := by
  refine ⟨?_, ?_, ?_⟩
  · intro T s key now pid
    unfold cacheLinkDataSync
    cases freshEntry T s key now
    · cases mapGet s.loadingPromises key <;> rfl
    · rfl
  · intro M s key now o
    rcases o with r | _
    · cases r <;> rfl
    · rfl
  · intro T s key now pid hdirty hl
    simp only [cacheLinkDataSync,
      freshEntry_none_of_dirty T s key now hdirty, hl]

/-- C5 amended witness: at a concrete state holding a fresh cache entry
for a dirty key, the call still starts an extraction. -/
theorem c5_dirty_never_cleared_witness :
    cacheLinkDataSync defaultCacheTimeout
        ⟨[("A.md", emptyEntry)], [], ["A.md"]⟩ "A.md" 0 2 =
      (.awaitRace 2, ⟨[("A.md", emptyEntry)], mapSet [] "A.md" 2, ["A.md"]⟩, 1) :=
  c5_dirty_never_cleared.2.2 defaultCacheTimeout
    ⟨[("A.md", emptyEntry)], [], ["A.md"]⟩ "A.md" 0 2 (by decide) rfl

/-! ## Generic worklist-loop lemmas -/

theorem loopRun_not_live {S : Type} (step : S → S) (live : S → Bool)
    (fuel : Nat) (s : S) (h : live s = false) :
    loopRun step live fuel s = s := by
  cases fuel <;> simp [loopRun, h]

theorem loopRun_succ_live {S : Type} (step : S → S) (live : S → Bool)
    (fuel : Nat) (s : S) (h : live s = true) :
    loopRun step live (fuel + 1) s = loopRun step live fuel (step s) := by
  simp [loopRun, h]

theorem loopRun_add {S : Type} (step : S → S) (live : S → Bool)
    (a b : Nat) (s : S) :
    loopRun step live (a + b) s =
      loopRun step live b (loopRun step live a s) := by
  induction a generalizing s with
  | zero => simp [loopRun, Nat.zero_add]
  | succ n ih =>
    by_cases h : live s = true
    · rw [Nat.succ_add, loopRun_succ_live step live (n + b) s h,
        loopRun_succ_live step live n s h, ih (step s)]
    · have h' : live s = false := by simpa using h
      rw [loopRun_not_live step live (n + 1 + b) s h',
        loopRun_not_live step live (n + 1) s h',
        loopRun_not_live step live b s h']

theorem loopRun_fix {S : Type} (step : S → S) (live : S → Bool)
    (I : S → Prop) (μ : S → Nat)
    (hstep : ∀ s, I s → live s = true → I (step s) ∧ μ (step s) < μ s) :
    ∀ (fuel : Nat) (s : S), I s → μ s ≤ fuel →
      live (loopRun step live fuel s) = false ∧
      I (loopRun step live fuel s) := by
  intro fuel
  induction fuel with
  | zero =>
    intro s hI hμ
    simp only [loopRun]
    refine ⟨?_, hI⟩
    by_contra h
    have h' : live s = true := by simpa using h
    have := (hstep s hI h').2
    omega
  | succ n ih =>
    intro s hI hμ
    by_cases h : live s = true
    · have hs := hstep s hI h
      rw [loopRun_succ_live step live n s h]
      exact ih (step s) hs.1 (by omega)
    · have h' : live s = false := by simpa using h
      rw [loopRun_not_live step live (n + 1) s h']
      exact ⟨h', hI⟩

theorem loopRun_inv {S : Type} (step : S → S) (live : S → Bool)
    (I : S → Prop) (hstep : ∀ s, I s → live s = true → I (step s)) :
    ∀ (fuel : Nat) (s : S), I s → I (loopRun step live fuel s) := by
  intro fuel
  induction fuel with
  | zero => intro s hI; exact hI
  | succ n ih =>
    intro s hI
    by_cases h : live s = true
    · rw [loopRun_succ_live step live n s h]
      exact ih (step s) (hstep s hI h)
    · have h' : live s = false := by simpa using h
      rw [loopRun_not_live step live (n + 1) s h']
      exact hI

/-! ## Small arithmetic and membership helpers -/

theorem le_foldr_max (l : List Nat) (a : Nat) (h : a ∈ l) :
    a ≤ l.foldr max 0 := by
  induction l with
  | nil => simp at h
  | cons b t ih =>
    rcases List.mem_cons.mp h with rfl | h'
    · exact le_max_left a (t.foldr max 0)
    · exact le_trans (ih h') (le_max_right b (t.foldr max 0))

theorem foldr_max_append_singleton (l : List Nat) (x : Nat) :
    (l ++ [x]).foldr max 0 = max (l.foldr max 0) x := by
  induction l with
  | nil => simp
  | cons a t ih =>
    rw [List.cons_append, List.foldr_cons, ih, List.foldr_cons,
      Nat.max_assoc]

theorem nodup_subset_length_le {l u : List String} (hnd : l.Nodup)
    (hsub : ∀ p ∈ l, p ∈ u) : l.length ≤ u.length := by
  classical
  have h1 : l.toFinset ⊆ u.toFinset := by
    intro a ha
    rw [List.mem_toFinset] at ha ⊢
    exact hsub a ha
  have h2 := Finset.card_le_card h1
  rw [List.toFinset_card_of_nodup hnd] at h2
  exact h2.trans (List.toFinset_card_le u)

theorem mem_pathUniverse (v : Vault) (file : TFile) (f : TFile)
    (h : f = file ∨ f ∈ v.files) : f.path ∈ pathUniverse v file := by
  unfold pathUniverse
  rw [List.mem_dedup]
  rcases h with rfl | h
  · exact List.mem_cons_self _ _
  · exact List.mem_cons_of_mem _ (List.mem_map_of_mem TFile.path h)

theorem inlinks_len_le (v : Vault) (file : TFile) (f : TFile)
    (h : f = file ∨ f ∈ v.files) :
    (v.linkData f.path).inlinks.length ≤ maxInlinksLen v file := by
  unfold maxInlinksLen
  apply le_foldr_max
  have hf : f ∈ file :: v.files := by
    rcases h with rfl | h
    · exact List.mem_cons_self _ _
    · exact List.mem_cons_of_mem _ h
  exact List.mem_map_of_mem (fun g => (v.linkData g.path).inlinks.length) hf

theorem outlinks_len_le (v : Vault) (file : TFile) (f : TFile)
    (h : f = file ∨ f ∈ v.files) :
    (v.linkData f.path).outlinks.length ≤ maxOutlinksLen v file := by
  unfold maxOutlinksLen
  apply le_foldr_max
  have hf : f ∈ file :: v.files := by
    rcases h with rfl | h
    · exact List.mem_cons_self _ _
    · exact List.mem_cons_of_mem _ h
  exact List.mem_map_of_mem (fun g => (v.linkData g.path).outlinks.length) hf

theorem mem_mapSet {α : Type} (m : List (String × α)) (k : String)
    (v : α) (p : String × α) (h : p ∈ mapSet m k v) :
    p ∈ m ∨ p = (k, v) := by
  unfold mapSet at h
  split at h
  · rcases List.mem_map.mp h with ⟨q, hq, hqe⟩
    by_cases hk : (q.1 == k) = true
    · rw [if_pos hk] at hqe
      right
      exact hqe.symm
    · rw [if_neg hk] at hqe
      left
      exact hqe ▸ hq
  · rcases List.mem_append.mp h with h1 | h2
    · left
      exact h1
    · right
      simpa using h2

theorem resolve_mem (v : Vault) (name : String) (f : TFile)
    (h : v.resolve name = some f) : f ∈ v.files :=
  List.mem_of_find?_eq_some h

/-! ## Inward-walk step lemmas -/

theorem recordInlink_spec (v : Vault) (d : Nat) (s : InState) (a : String) :
    (recordInlink v d s a).processedLinks = s.processedLinks ∧
    ∃ e0 : List (TFile × Nat),
      (recordInlink v d s a).inlinkQueue = s.inlinkQueue ++ e0 ∧
      e0.length ≤ 1 ∧ ∀ q ∈ e0, q.1 ∈ v.files ∧ q.2 = d + 1 := by
  unfold recordInlink
  cases hres : v.resolve a with
  | none => exact ⟨rfl, [], by simp, by simp, by simp⟩
  | some sf =>
    dsimp only
    by_cases hmem : sf.path ∈ s.processedLinks
    · rw [if_pos hmem]
      exact ⟨rfl, [], by simp, by simp, by simp⟩
    · rw [if_neg hmem]
      refine ⟨rfl, [(sf, d + 1)], rfl, by simp, ?_⟩
      intro q hq
      have hq' : q = (sf, d + 1) := List.mem_singleton.mp hq
      subst hq'
      exact ⟨resolve_mem v a sf hres, rfl⟩

theorem foldl_recordInlink_spec (v : Vault) (d : Nat) :
    ∀ (l : List String) (s : InState),
      (l.foldl (recordInlink v d) s).processedLinks = s.processedLinks ∧
      ∃ extra : List (TFile × Nat),
        (l.foldl (recordInlink v d) s).inlinkQueue =
          s.inlinkQueue ++ extra ∧
        extra.length ≤ l.length ∧
        ∀ q ∈ extra, q.1 ∈ v.files ∧ q.2 = d + 1 := by
  intro l
  induction l with
  | nil => intro s; exact ⟨rfl, [], by simp, by simp, by simp⟩
  | cons a t ih =>
    intro s
    rw [List.foldl_cons]
    obtain ⟨hp0, e0, hq0, hlen0, hmem0⟩ := recordInlink_spec v d s a
    obtain ⟨hp, extra, hq, hlen, hmem⟩ := ih (recordInlink v d s a)
    refine ⟨hp.trans hp0, e0 ++ extra, ?_, ?_, ?_⟩
    · rw [hq, hq0, List.append_assoc]
    · rw [List.length_append, List.length_cons]
      omega
    · intro q hq'
      rcases List.mem_append.mp hq' with h1 | h2
      · exact hmem0 q h1
      · exact hmem q h2

theorem inwardStep_decreasing (v : Vault) (file : TFile) (maxDepth : Nat) :
    ∀ s : InState, inwardInv v file s →
      (!s.inlinkQueue.isEmpty) = true →
      inwardInv v file (inwardStep v maxDepth s) ∧
      inwardMeasure v file (inwardStep v maxDepth s) <
        inwardMeasure v file s := by
  intro s hI hlive
  obtain ⟨hnd, hsub, hq⟩ := hI
  match hqe : s.inlinkQueue with
  | [] => rw [hqe] at hlive; simp at hlive
  | (f, d) :: rest =>
    have hqf : f = file ∨ f ∈ v.files := by
      have := hq (f, d) (by rw [hqe]; exact List.mem_cons_self _ _)
      exact this
    have hqrest : ∀ q ∈ rest, q.1 = file ∨ q.1 ∈ v.files := by
      intro q hq'
      exact hq q (by rw [hqe]; exact List.mem_cons_of_mem _ hq')
    unfold inwardStep
    rw [hqe]
    dsimp only
    by_cases hskip : maxDepth ≤ d ∨ f.path ∈ s.processedLinks
    · rw [if_pos hskip]
      constructor
      · exact ⟨hnd, hsub, hqrest⟩
      · unfold inwardMeasure
        rw [hqe]
        simp only [List.length_cons]
        omega
    · rw [if_neg hskip]
      push_neg at hskip
      obtain ⟨hdepth, hproc⟩ := hskip
      obtain ⟨hp, extra, hq2, hlen, hmem⟩ :=
        foldl_recordInlink_spec v d (v.linkData f.path).inlinks
          { s with inlinkQueue := rest,
                   processedLinks := s.processedLinks ++ [f.path] }
      have hfu : f.path ∈ pathUniverse v file := mem_pathUniverse v file f hqf
      have hnd' : (s.processedLinks ++ [f.path]).Nodup := by
        rw [List.nodup_append]
        exact ⟨hnd, List.nodup_singleton _, by simpa using hproc⟩
      have hsub' : ∀ p ∈ s.processedLinks ++ [f.path],
          p ∈ pathUniverse v file := by
        intro p hp'
        rcases List.mem_append.mp hp' with h1 | h2
        · exact hsub p h1
        · have : p = f.path := List.mem_singleton.mp h2
          exact this ▸ hfu
      constructor
      · refine ⟨?_, ?_, ?_⟩
        · rw [hp]
          exact hnd'
        · rw [hp]
          exact hsub'
        · intro q hq'
          rw [hq2] at hq'
          rcases List.mem_append.mp hq' with h1 | h2
          · exact hqrest q h1
          · exact Or.inr (hmem q h2).1
      · unfold inwardMeasure
        rw [hqe, hp, hq2]
        have hplt : (s.processedLinks ++ [f.path]).length ≤
            (pathUniverse v file).length :=
          nodup_subset_length_le hnd' hsub'
        rw [List.length_append] at hplt
        simp only [List.length_singleton] at hplt
        have hA : (pathUniverse v file).length - s.processedLinks.length =
            ((pathUniverse v file).length -
              (s.processedLinks ++ [f.path]).length) + 1 := by
          rw [List.length_append]
          simp only [List.length_singleton]
          omega
        rw [hA, Nat.succ_mul]
        have hextra : extra.length ≤ maxInlinksLen v file :=
          le_trans hlen (inlinks_len_le v file f hqf)
        simp only [List.length_append, List.length_cons]
        omega

theorem inwardInit_inv (v : Vault) (file : TFile) :
    inwardInv v file (inwardInit file) := by
  refine ⟨List.nodup_nil, by simp [inwardInit], ?_⟩
  intro q hq
  have : q = (file, 0) := by simpa [inwardInit] using hq
  rw [this]
  exact Or.inl rfl

theorem inwardMeasure_init (v : Vault) (file : TFile) :
    inwardMeasure v file (inwardInit file) = inwardFuel v file := by
  unfold inwardMeasure inwardInit inwardFuel
  simp

theorem inwardFinal_spec (v : Vault) (file : TFile) (maxDepth : Nat) :
    (inwardFinal v file maxDepth).inlinkQueue = [] ∧
    inwardInv v file (inwardFinal v file maxDepth) := by
  have := loopRun_fix (inwardStep v maxDepth)
    (fun s => !s.inlinkQueue.isEmpty) (inwardInv v file)
    (inwardMeasure v file)
    (fun s hI hl => by
      have h := inwardStep_decreasing v file maxDepth s hI hl
      exact ⟨h.1, h.2⟩)
    (inwardFuel v file) (inwardInit file) (inwardInit_inv v file)
    (le_of_eq (inwardMeasure_init v file))
  refine ⟨?_, this.2⟩
  have hlive := this.1
  rw [Bool.not_eq_false'] at hlive
  exact List.isEmpty_iff.mp hlive

/-! ## Outward-walk step lemmas -/

theorem recordOutlink_spec (v : Vault) (d : Nat) (s : OutState) (a : String) :
    (recordOutlink v d s a).processedLinks = s.processedLinks ∧
    ∃ e0 : List (TFile × Nat),
      (recordOutlink v d s a).queue = s.queue ++ e0 ∧
      e0.length ≤ 1 ∧ ∀ q ∈ e0, q.1 ∈ v.files ∧ q.2 = d + 1 := by
  unfold recordOutlink
  cases hres : v.resolve a with
  | none => exact ⟨rfl, [], by simp, by simp, by simp⟩
  | some lf =>
    dsimp only
    by_cases hmem : lf.path ∈ s.processedLinks
    · rw [if_pos hmem]
      exact ⟨rfl, [], by simp, by simp, by simp⟩
    · rw [if_neg hmem]
      refine ⟨rfl, [(lf, d + 1)], rfl, by simp, ?_⟩
      intro q hq
      have hq' : q = (lf, d + 1) := List.mem_singleton.mp hq
      subst hq'
      exact ⟨resolve_mem v a lf hres, rfl⟩

theorem foldl_recordOutlink_spec (v : Vault) (d : Nat) :
    ∀ (l : List String) (s : OutState),
      (l.foldl (recordOutlink v d) s).processedLinks = s.processedLinks ∧
      ∃ extra : List (TFile × Nat),
        (l.foldl (recordOutlink v d) s).queue = s.queue ++ extra ∧
        extra.length ≤ l.length ∧
        ∀ q ∈ extra, q.1 ∈ v.files ∧ q.2 = d + 1 := by
  intro l
  induction l with
  | nil => intro s; exact ⟨rfl, [], by simp, by simp, by simp⟩
  | cons a t ih =>
    intro s
    rw [List.foldl_cons]
    obtain ⟨hp0, e0, hq0, hlen0, hmem0⟩ := recordOutlink_spec v d s a
    obtain ⟨hp, extra, hq, hlen, hmem⟩ := ih (recordOutlink v d s a)
    refine ⟨hp.trans hp0, e0 ++ extra, ?_, ?_, ?_⟩
    · rw [hq, hq0, List.append_assoc]
    · rw [List.length_append, List.length_cons]
      omega
    · intro q hq'
      rcases List.mem_append.mp hq' with h1 | h2
      · exact hmem0 q h1
      · exact hmem q h2

theorem outwardStep_decreasing (v : Vault) (file : TFile) (maxDepth : Nat) :
    ∀ s : OutState, outwardInv v file s →
      (!s.queue.isEmpty) = true →
      outwardInv v file (outwardStep v maxDepth s) ∧
      outwardMeasure v file (outwardStep v maxDepth s) <
        outwardMeasure v file s := by
  intro s hI hlive
  obtain ⟨hnd, hsub, hq⟩ := hI
  match hqe : s.queue with
  | [] => rw [hqe] at hlive; simp at hlive
  | (f, d) :: rest =>
    have hqf : f = file ∨ f ∈ v.files :=
      hq (f, d) (by rw [hqe]; exact List.mem_cons_self _ _)
    have hqrest : ∀ q ∈ rest, q.1 = file ∨ q.1 ∈ v.files := by
      intro q hq'
      exact hq q (by rw [hqe]; exact List.mem_cons_of_mem _ hq')
    unfold outwardStep
    rw [hqe]
    dsimp only
    by_cases hskip : maxDepth ≤ d ∨ (f.extension == "canvas") = true ∨
        f.path ∈ s.processedLinks
    · rw [if_pos hskip]
      constructor
      · exact ⟨hnd, hsub, hqrest⟩
      · unfold outwardMeasure
        rw [hqe]
        simp only [List.length_cons]
        omega
    · rw [if_neg hskip]
      push_neg at hskip
      obtain ⟨hdepth, hcanvas, hproc⟩ := hskip
      obtain ⟨hp, extra, hq2, hlen, hmem⟩ :=
        foldl_recordOutlink_spec v d (v.linkData f.path).outlinks
          { s with queue := rest,
                   processedLinks := s.processedLinks ++ [f.path] }
      have hfu : f.path ∈ pathUniverse v file := mem_pathUniverse v file f hqf
      have hnd' : (s.processedLinks ++ [f.path]).Nodup := by
        rw [List.nodup_append]
        exact ⟨hnd, List.nodup_singleton _, by simpa using hproc⟩
      have hsub' : ∀ p ∈ s.processedLinks ++ [f.path],
          p ∈ pathUniverse v file := by
        intro p hp'
        rcases List.mem_append.mp hp' with h1 | h2
        · exact hsub p h1
        · have : p = f.path := List.mem_singleton.mp h2
          exact this ▸ hfu
      constructor
      · refine ⟨?_, ?_, ?_⟩
        · rw [hp]
          exact hnd'
        · rw [hp]
          exact hsub'
        · intro q hq'
          rw [hq2] at hq'
          rcases List.mem_append.mp hq' with h1 | h2
          · exact hqrest q h1
          · exact Or.inr (hmem q h2).1
      · unfold outwardMeasure
        rw [hqe, hp, hq2]
        have hplt : (s.processedLinks ++ [f.path]).length ≤
            (pathUniverse v file).length :=
          nodup_subset_length_le hnd' hsub'
        rw [List.length_append] at hplt
        simp only [List.length_singleton] at hplt
        have hA : (pathUniverse v file).length - s.processedLinks.length =
            ((pathUniverse v file).length -
              (s.processedLinks ++ [f.path]).length) + 1 := by
          rw [List.length_append]
          simp only [List.length_singleton]
          omega
        rw [hA, Nat.succ_mul]
        have hextra : extra.length ≤ maxOutlinksLen v file :=
          le_trans hlen (outlinks_len_le v file f hqf)
        simp only [List.length_append, List.length_cons]
        omega

theorem outwardInit_inv (v : Vault) (file : TFile) :
    outwardInv v file (outwardInit file) := by
  refine ⟨List.nodup_nil, by simp [outwardInit], ?_⟩
  intro q hq
  have : q = (file, 0) := by simpa [outwardInit] using hq
  rw [this]
  exact Or.inl rfl

theorem outwardMeasure_init (v : Vault) (file : TFile) :
    outwardMeasure v file (outwardInit file) = outwardFuel v file := by
  unfold outwardMeasure outwardInit outwardFuel
  simp

theorem outwardFinal_spec (v : Vault) (file : TFile) (maxDepth : Nat) :
    (renderOutlinksIteratively v file maxDepth).queue = [] ∧
    outwardInv v file (renderOutlinksIteratively v file maxDepth) := by
  have := loopRun_fix (outwardStep v maxDepth)
    (fun s => !s.queue.isEmpty) (outwardInv v file)
    (outwardMeasure v file)
    (fun s hI hl => outwardStep_decreasing v file maxDepth s hI hl)
    (outwardFuel v file) (outwardInit file) (outwardInit_inv v file)
    (le_of_eq (outwardMeasure_init v file))
  refine ⟨?_, this.2⟩
  have hlive := this.1
  rw [Bool.not_eq_false'] at hlive
  exact List.isEmpty_iff.mp hlive

/-! ## Traversal claims -/

/-- C6: on every vault and start file — cyclic link graphs included —
both walks terminate: the computed fuel drains the queue, running longer
changes nothing, and the visited list (one entry per expansion, appended
exactly when a node is popped unvisited and its links followed) is
duplicate-free, so each document identifier is expanded at most once per
walk invocation.  In the concrete two-note cycle A→B→A both walks expand
each of A and B exactly once. -/
theorem c6_cycle_safety :
    (∀ (v : Vault) (file : TFile) (maxDepth : Nat),
      ((inwardFinal v file maxDepth).inlinkQueue = [] ∧
       (∀ extra : Nat,
         loopRun (inwardStep v maxDepth) (fun s => !s.inlinkQueue.isEmpty)
           (inwardFuel v file + extra) (inwardInit file) =
           inwardFinal v file maxDepth) ∧
       (inwardFinal v file maxDepth).processedLinks.Nodup) ∧
      ((renderOutlinksIteratively v file maxDepth).queue = [] ∧
       (∀ extra : Nat,
         loopRun (outwardStep v maxDepth) (fun s => !s.queue.isEmpty)
           (outwardFuel v file + extra) (outwardInit file) =
           renderOutlinksIteratively v file maxDepth) ∧
       (renderOutlinksIteratively v file maxDepth).processedLinks.Nodup)) ∧
    (inwardFinal cycVault fileA 5).processedLinks = ["A.md", "B.md"] ∧
    (renderOutlinksIteratively cycVault fileA 5).processedLinks =
      ["A.md", "B.md"] := by
  refine ⟨?_, by decide, by decide⟩
  intro v file maxDepth
  obtain ⟨hq1, hI1⟩ := inwardFinal_spec v file maxDepth
  obtain ⟨hq2, hI2⟩ := outwardFinal_spec v file maxDepth
  refine ⟨⟨hq1, ?_, hI1.1⟩, ⟨hq2, ?_, hI2.1⟩⟩
  · intro extra
    rw [loopRun_add]
    apply loopRun_not_live
    show (!(inwardFinal v file maxDepth).inlinkQueue.isEmpty) = false
    rw [hq1]
    rfl
  · intro extra
    rw [loopRun_add]
    apply loopRun_not_live
    show (!(renderOutlinksIteratively v file maxDepth).queue.isEmpty) = false
    rw [hq2]
    rfl

/-! ## Depth-bound helpers -/

theorem recordInlink_map (v : Vault) (d : Nat) (s : InState) (a : String)
    (p : String × InNode) (hp : p ∈ (recordInlink v d s a).inlinkMap) :
    p ∈ s.inlinkMap ∨ p.2.depth = d + 1 := by
  unfold recordInlink at hp
  revert hp
  cases hres : v.resolve a with
  | none => intro hp; exact Or.inl hp
  | some sf =>
    dsimp only
    by_cases hmem : sf.path ∈ s.processedLinks
    · rw [if_pos hmem]
      intro hp
      exact Or.inl hp
    · rw [if_neg hmem]
      intro hp
      rcases mem_mapSet _ _ _ p hp with h1 | h2
      · exact Or.inl h1
      · right
        rw [h2]

theorem foldl_recordInlink_map (v : Vault) (d : Nat) :
    ∀ (l : List String) (s : InState) (p : String × InNode),
      p ∈ (l.foldl (recordInlink v d) s).inlinkMap →
      p ∈ s.inlinkMap ∨ p.2.depth = d + 1 := by
  intro l
  induction l with
  | nil => intro s p hp; exact Or.inl hp
  | cons a t ih =>
    intro s p hp
    rw [List.foldl_cons] at hp
    rcases ih (recordInlink v d s a) p hp with h1 | h2
    · exact recordInlink_map v d s a p h1
    · exact Or.inr h2

theorem recordOutlink_rendered (v : Vault) (d : Nat) (s : OutState)
    (a : String) (r : String × Nat)
    (hr : r ∈ (recordOutlink v d s a).rendered) :
    r ∈ s.rendered ∨ r.2 = d + 1 := by
  unfold recordOutlink at hr
  revert hr
  cases hres : v.resolve a with
  | none => intro hr; exact Or.inl hr
  | some lf =>
    dsimp only
    by_cases hmem : lf.path ∈ s.processedLinks
    · rw [if_pos hmem]
      intro hr
      exact Or.inl hr
    · rw [if_neg hmem]
      intro hr
      rcases List.mem_append.mp hr with h1 | h2
      · exact Or.inl h1
      · right
        have : r = (lf.path, d + 1) := List.mem_singleton.mp h2
        rw [this]

theorem foldl_recordOutlink_rendered (v : Vault) (d : Nat) :
    ∀ (l : List String) (s : OutState) (r : String × Nat),
      r ∈ (l.foldl (recordOutlink v d) s).rendered →
      r ∈ s.rendered ∨ r.2 = d + 1 := by
  intro l
  induction l with
  | nil => intro s r hr; exact Or.inl hr
  | cons a t ih =>
    intro s r hr
    rw [List.foldl_cons] at hr
    rcases ih (recordOutlink v d s a) r hr with h1 | h2
    · exact recordOutlink_rendered v d s a r h1
    · exact Or.inr h2

theorem inward_depth_inv (v : Vault) (file : TFile) (maxDepth : Nat) :
    (∀ q ∈ (inwardFinal v file maxDepth).inlinkQueue, q.2 ≤ maxDepth) ∧
    (∀ e ∈ (inwardFinal v file maxDepth).inlinkMap,
      e.2.depth ≤ maxDepth) := by
  apply loopRun_inv (inwardStep v maxDepth)
    (fun s => !s.inlinkQueue.isEmpty)
    (fun s => (∀ q ∈ s.inlinkQueue, q.2 ≤ maxDepth) ∧
      (∀ e ∈ s.inlinkMap, e.2.depth ≤ maxDepth))
  · intro s hI hlive
    obtain ⟨hqd, hmd⟩ := hI
    match hqe : s.inlinkQueue with
    | [] => rw [hqe] at hlive; simp at hlive
    | (f, d) :: rest =>
      have hrest : ∀ q ∈ rest, q.2 ≤ maxDepth := by
        intro q hq'
        exact hqd q (by rw [hqe]; exact List.mem_cons_of_mem _ hq')
      unfold inwardStep
      rw [hqe]
      dsimp only
      by_cases hskip : maxDepth ≤ d ∨ f.path ∈ s.processedLinks
      · rw [if_pos hskip]
        exact ⟨hrest, hmd⟩
      · rw [if_neg hskip]
        push_neg at hskip
        obtain ⟨hp, extra, hq2, hlen, hmem⟩ :=
          foldl_recordInlink_spec v d (v.linkData f.path).inlinks
            { s with inlinkQueue := rest,
                     processedLinks := s.processedLinks ++ [f.path] }
        constructor
        · intro q hq'
          rw [hq2] at hq'
          rcases List.mem_append.mp hq' with h1 | h2
          · exact hrest q h1
          · rw [(hmem q h2).2]
            omega
        · intro e he
          rcases foldl_recordInlink_map v d (v.linkData f.path).inlinks
              { s with inlinkQueue := rest,
                       processedLinks := s.processedLinks ++ [f.path] }
              e he with h1 | h2
          · exact hmd e h1
          · rw [h2]
            omega
  · constructor
    · intro q hq
      have : q = (file, 0) := by simpa [inwardInit] using hq
      rw [this]
      exact Nat.zero_le _
    · intro e he
      simp [inwardInit] at he

theorem outward_depth_inv (v : Vault) (file : TFile) (maxDepth : Nat) :
    (∀ q ∈ (renderOutlinksIteratively v file maxDepth).queue,
      q.2 ≤ maxDepth) ∧
    (∀ r ∈ (renderOutlinksIteratively v file maxDepth).rendered,
      r.2 ≤ maxDepth) := by
  apply loopRun_inv (outwardStep v maxDepth)
    (fun s => !s.queue.isEmpty)
    (fun s => (∀ q ∈ s.queue, q.2 ≤ maxDepth) ∧
      (∀ r ∈ s.rendered, r.2 ≤ maxDepth))
  · intro s hI hlive
    obtain ⟨hqd, hrd⟩ := hI
    match hqe : s.queue with
    | [] => rw [hqe] at hlive; simp at hlive
    | (f, d) :: rest =>
      have hrest : ∀ q ∈ rest, q.2 ≤ maxDepth := by
        intro q hq'
        exact hqd q (by rw [hqe]; exact List.mem_cons_of_mem _ hq')
      unfold outwardStep
      rw [hqe]
      dsimp only
      by_cases hskip : maxDepth ≤ d ∨ (f.extension == "canvas") = true ∨
          f.path ∈ s.processedLinks
      · rw [if_pos hskip]
        exact ⟨hrest, hrd⟩
      · rw [if_neg hskip]
        push_neg at hskip
        obtain ⟨hdepth, _, _⟩ := hskip
        obtain ⟨hp, extra, hq2, hlen, hmem⟩ :=
          foldl_recordOutlink_spec v d (v.linkData f.path).outlinks
            { s with queue := rest,
                     processedLinks := s.processedLinks ++ [f.path] }
        constructor
        · intro q hq'
          rw [hq2] at hq'
          rcases List.mem_append.mp hq' with h1 | h2
          · exact hrest q h1
          · rw [(hmem q h2).2]
            omega
        · intro r hr
          rcases foldl_recordOutlink_rendered v d (v.linkData f.path).outlinks
              { s with queue := rest,
                       processedLinks := s.processedLinks ++ [f.path] }
              r hr with h1 | h2
          · exact hrd r h1
          · rw [h2]
            omega
  · constructor
    · intro q hq
      have : q = (file, 0) := by simpa [outwardInit] using hq
      rw [this]
      exact Nat.zero_le _
    · intro r hr
      simp [outwardInit] at hr

/-- C7 counterexample: in the {A, B, C} scenario with `maxDepth = 2`, the
inward walk reports node C at depth 2 — a traversal node at depth ≥
`maxDepth`, contradicting the claim that no node is reported at
`depth ≥ N`. -/
theorem c7_counterexample :
    ∃ p ∈ (renderInlinksIterativelyWithOutlinks abcVault fileA 2).1,
      2 ≤ p.2.depth := by
  decide

/-- C7 amended: the depth bound both walks respect is `depth ≤ maxDepth`:
no discovered inlink node, rendered inlink node, or rendered outlink node
has depth greater than `maxDepth` (nodes at depth exactly `maxDepth` are
reported; only expansion at depth ≥ `maxDepth` is cut off). -/
theorem c7_depth_bound :
    ∀ (v : Vault) (file : TFile) (maxDepth : Nat),
      (∀ e ∈ (inwardFinal v file maxDepth).inlinkMap,
        e.2.depth ≤ maxDepth) ∧
      (∀ e ∈ (renderInlinksIterativelyWithOutlinks v file maxDepth).1,
        e.2.depth ≤ maxDepth) ∧
      (∀ r ∈ (renderOutlinksIteratively v file maxDepth).rendered,
        r.2 ≤ maxDepth) := by
  intro v file maxDepth
  obtain ⟨_, hmap⟩ := inward_depth_inv v file maxDepth
  refine ⟨hmap, ?_, (outward_depth_inv v file maxDepth).2⟩
  intro e he
  have hr : (renderInlinksIterativelyWithOutlinks v file maxDepth).1 =
      List.insertionSort depthDescLE
        (inwardFinal v file maxDepth).inlinkMap := rfl
  rw [hr] at he
  exact hmap e ((List.mem_insertionSort depthDescLE).mp he)

/-! ## Inlink-ordering helpers -/

theorem pairwise_of_eq_depth (dd : Nat) :
    ∀ l : List (String × InNode), (∀ p ∈ l, p.2.depth = dd) →
      l.Pairwise depthDescLE := by
  intro l
  induction l with
  | nil => intro _; exact List.Pairwise.nil
  | cons a t ih =>
    intro h
    refine List.Pairwise.cons ?_ (ih fun p hp => h p (List.mem_cons_of_mem _ hp))
    intro b hb
    unfold depthDescLE
    rw [h a (List.mem_cons_self _ _), h b (List.mem_cons_of_mem _ hb)]

theorem filter_insertionSort_stable (dd : Nat)
    (l : List (String × InNode)) :
    (List.insertionSort depthDescLE l).filter (fun p => p.2.depth == dd) =
      l.filter (fun p => p.2.depth == dd) := by
  have hall : ∀ p ∈ l.filter (fun p => p.2.depth == dd), p.2.depth = dd := by
    intro p hp
    have := List.of_mem_filter hp
    simpa using this
  have hpair : (l.filter (fun p => p.2.depth == dd)).Pairwise depthDescLE :=
    pairwise_of_eq_depth dd _ hall
  have hsl : (l.filter (fun p => p.2.depth == dd)).Sublist
      (List.insertionSort depthDescLE l) :=
    List.sublist_insertionSort hpair (List.filter_sublist l)
  have hsl2 := hsl.filter (fun p => p.2.depth == dd)
  rw [List.filter_filter] at hsl2
  simp only [Bool.and_self] at hsl2
  have hlen : ((List.insertionSort depthDescLE l).filter
        (fun p => p.2.depth == dd)).length =
      (l.filter (fun p => p.2.depth == dd)).length :=
    ((List.perm_insertionSort depthDescLE l).filter _).length_eq
  exact (hsl2.eq_of_length hlen.symm).symm

theorem recordInlink_maxdisc (v : Vault) (d : Nat) (s : InState)
    (a : String) (hmax : s.maxInlinkDepth = s.discoveries.foldr max 0)
    (hbound : ∀ p ∈ s.inlinkMap, p.2.depth ≤ s.maxInlinkDepth) :
    (recordInlink v d s a).maxInlinkDepth =
      (recordInlink v d s a).discoveries.foldr max 0 ∧
    (∀ p ∈ (recordInlink v d s a).inlinkMap,
      p.2.depth ≤ (recordInlink v d s a).maxInlinkDepth) := by
  unfold recordInlink
  cases hres : v.resolve a with
  | none => exact ⟨hmax, hbound⟩
  | some sf =>
    dsimp only
    by_cases hmem : sf.path ∈ s.processedLinks
    · rw [if_pos hmem]
      exact ⟨hmax, hbound⟩
    · rw [if_neg hmem]
      constructor
      · dsimp only
        rw [foldr_max_append_singleton, ← hmax]
      · intro p hp
        dsimp only at hp ⊢
        rcases mem_mapSet _ _ _ p hp with h1 | h2
        · exact le_trans (hbound p h1) (le_max_left _ _)
        · rw [h2]
          exact le_max_right _ _

theorem foldl_recordInlink_maxdisc (v : Vault) (d : Nat) :
    ∀ (l : List String) (s : InState),
      s.maxInlinkDepth = s.discoveries.foldr max 0 →
      (∀ p ∈ s.inlinkMap, p.2.depth ≤ s.maxInlinkDepth) →
      (l.foldl (recordInlink v d) s).maxInlinkDepth =
        (l.foldl (recordInlink v d) s).discoveries.foldr max 0 ∧
      (∀ p ∈ (l.foldl (recordInlink v d) s).inlinkMap,
        p.2.depth ≤ (l.foldl (recordInlink v d) s).maxInlinkDepth) := by
  intro l
  induction l with
  | nil => intro s hmax hbound; exact ⟨hmax, hbound⟩
  | cons a t ih =>
    intro s hmax hbound
    rw [List.foldl_cons]
    obtain ⟨hmax', hbound'⟩ := recordInlink_maxdisc v d s a hmax hbound
    exact ih (recordInlink v d s a) hmax' hbound'

theorem inward_maxdisc_inv (v : Vault) (file : TFile) (maxDepth : Nat) :
    (inwardFinal v file maxDepth).maxInlinkDepth =
      (inwardFinal v file maxDepth).discoveries.foldr max 0 ∧
    (∀ p ∈ (inwardFinal v file maxDepth).inlinkMap,
      p.2.depth ≤ (inwardFinal v file maxDepth).maxInlinkDepth) := by
  apply loopRun_inv (inwardStep v maxDepth)
    (fun s => !s.inlinkQueue.isEmpty)
    (fun s => s.maxInlinkDepth = s.discoveries.foldr max 0 ∧
      (∀ p ∈ s.inlinkMap, p.2.depth ≤ s.maxInlinkDepth))
  · intro s hI hlive
    obtain ⟨hmax, hbound⟩ := hI
    match hqe : s.inlinkQueue with
    | [] => rw [hqe] at hlive; simp at hlive
    | (f, d) :: rest =>
      unfold inwardStep
      rw [hqe]
      dsimp only
      by_cases hskip : maxDepth ≤ d ∨ f.path ∈ s.processedLinks
      · rw [if_pos hskip]
        exact ⟨hmax, hbound⟩
      · rw [if_neg hskip]
        exact foldl_recordInlink_maxdisc v d (v.linkData f.path).inlinks
          { s with inlinkQueue := rest,
                   processedLinks := s.processedLinks ++ [f.path] }
          hmax hbound
  · exact ⟨rfl, by simp [inwardInit]⟩

/-- C8: the inward walk renders the discovered inlink nodes sorted by
depth descending; the rendered list is a permutation of the discovery map
and, depth level by depth level, preserves discovery order exactly (the
JavaScript sort is stable); the returned value is the maximum depth over
all discovery events (`0` when no inlink was discovered) and bounds every
rendered node's depth.  In the {A, B, C} scenario (B links to A, C links
to B) the walk from A with `maxDepth = 2` renders C at depth 2 before B
at depth 1 and returns max depth 2. -/
theorem c8_inlink_ordering :
    (∀ (v : Vault) (file : TFile) (maxDepth : Nat),
      List.Sorted depthDescLE
        (renderInlinksIterativelyWithOutlinks v file maxDepth).1 ∧
      List.Perm (renderInlinksIterativelyWithOutlinks v file maxDepth).1
        (inwardFinal v file maxDepth).inlinkMap ∧
      (∀ dd : Nat,
        (renderInlinksIterativelyWithOutlinks v file maxDepth).1.filter
            (fun p => p.2.depth == dd) =
          (inwardFinal v file maxDepth).inlinkMap.filter
            (fun p => p.2.depth == dd)) ∧
      (renderInlinksIterativelyWithOutlinks v file maxDepth).2 =
        (inwardFinal v file maxDepth).discoveries.foldr max 0 ∧
      (∀ e ∈ (renderInlinksIterativelyWithOutlinks v file maxDepth).1,
        e.2.depth ≤
          (renderInlinksIterativelyWithOutlinks v file maxDepth).2)) ∧
    (renderInlinksIterativelyWithOutlinks abcVault fileA 2).1.map
        (fun p => (p.1, p.2.depth)) = [("C.md", 2), ("B.md", 1)] ∧
    (renderInlinksIterativelyWithOutlinks abcVault fileA 2).2 = 2 := by
  refine ⟨?_, by decide, by decide⟩
  intro v file maxDepth
  have hr : (renderInlinksIterativelyWithOutlinks v file maxDepth).1 =
      List.insertionSort depthDescLE
        (inwardFinal v file maxDepth).inlinkMap := rfl
  have hm : (renderInlinksIterativelyWithOutlinks v file maxDepth).2 =
      (inwardFinal v file maxDepth).maxInlinkDepth := rfl
  obtain ⟨hmax, hbound⟩ := inward_maxdisc_inv v file maxDepth
  refine ⟨?_, ?_, ?_, ?_, ?_⟩
  · rw [hr]
    exact List.sorted_insertionSort depthDescLE _
  · rw [hr]
    exact List.perm_insertionSort depthDescLE _
  · intro dd
    rw [hr]
    exact filter_insertionSort_stable dd _
  · rw [hm]
    exact hmax
  · intro e he
    rw [hr] at he
    rw [hm]
    exact hbound e ((List.mem_insertionSort depthDescLE).mp he)

/-- C9: `renderLinkHierarchy` invokes the outward walk with effective
depth exactly `max(1, maxDepth - maxInlinkDepthFound)` — also under
JavaScript (integer) subtraction semantics — so the outward depth is
always at least 1. -/
theorem c9_outward_depth_budget :
    ∀ (v : Vault) (file : TFile) (maxDepth : Nat),
      (renderLinkHierarchy v file maxDepth).2.1 =
        max 1 (maxDepth -
          (renderInlinksIterativelyWithOutlinks v file maxDepth).2) ∧
      ((renderLinkHierarchy v file maxDepth).2.1 : Int) =
        max 1 ((maxDepth : Int) -
          ((renderInlinksIterativelyWithOutlinks v file maxDepth).2 : Int)) ∧
      1 ≤ (renderLinkHierarchy v file maxDepth).2.1 ∧
      (renderLinkHierarchy v file maxDepth).2.2 =
        renderOutlinksIteratively v file
          (max 1 (maxDepth -
            (renderInlinksIterativelyWithOutlinks v file maxDepth).2)) := by
  intro v file maxDepth
  refine ⟨rfl, ?_, le_max_left _ _, rfl⟩
  show ((max 1 (maxDepth -
      (renderInlinksIterativelyWithOutlinks v file maxDepth).2) : Nat) : Int) =
    max 1 ((maxDepth : Int) -
      ((renderInlinksIterativelyWithOutlinks v file maxDepth).2 : Int))
  rcases Nat.le_total maxDepth
      (renderInlinksIterativelyWithOutlinks v file maxDepth).2 with h | h
  · rw [Nat.sub_eq_zero_of_le h]
    have h1 : (maxDepth : Int) -
        ((renderInlinksIterativelyWithOutlinks v file maxDepth).2 : Int) ≤ 1 := by
      omega
    rw [max_eq_left h1]
    simp
  · have heq : ((maxDepth -
        (renderInlinksIterativelyWithOutlinks v file maxDepth).2 : Nat) : Int) =
        (maxDepth : Int) -
          ((renderInlinksIterativelyWithOutlinks v file maxDepth).2 : Int) := by
      omega
    rw [Nat.cast_max, heq]
    norm_num

/-- C7 amended witness: in the {A, B, C} scenario the reported node C
(depth 2) indeed satisfies the bound `depth ≤ maxDepth = 2`. -/
theorem c7_depth_bound_witness :
    (("C.md", (⟨2, fileC, ["B"]⟩ : InNode)) : String × InNode).2.depth ≤ 2 :=
  (c7_depth_bound abcVault fileA 2).2.1
    ("C.md", (⟨2, fileC, ["B"]⟩ : InNode)) (by decide)

/-- C8 witness: in the {A, B, C} scenario the rendered node C (depth 2)
is bounded by the returned maximum depth. -/
theorem c8_inlink_ordering_witness :
    (("C.md", (⟨2, fileC, ["B"]⟩ : InNode)) : String × InNode).2.depth ≤
      (renderInlinksIterativelyWithOutlinks abcVault fileA 2).2 :=
  (c8_inlink_ordering.1 abcVault fileA 2).2.2.2.2
    ("C.md", (⟨2, fileC, ["B"]⟩ : InNode)) (by decide)

end LinkNavigation
